import Mathlib

/-!
Verification of the rle-rs run-length codec (src/main.rs).

Modelling conventions:
* Rust `u8` bytes are modelled as `Nat`.  The codec never performs wrapping
  arithmetic on byte values: the only arithmetic is the `occurrences`
  counter, which the guard `occurrences < 255` keeps in `1..=255`, so no
  `% 256` reduction is ever needed and the `Nat` model agrees with `u8`
  on all genuine byte inputs.
* A Rust panic (out-of-bounds slice indexing) is modelled as `none`:
  fallible computations return `Option`.
-/

namespace Rle

/-- Loop body of `encode` in src/main.rs (lines 70-77) followed by the final
`encoding.push(occurrences)` (line 79).  The accumulator `encoding` is the
`Vec<u8>` being built; its last element is the current run's value byte
(`encoding.last().unwrap()` in the source; the accumulator is never empty at
a call site, so `getLastD _ 0` never takes its default). -/
def encodeLoop : List Nat → List Nat → Nat → List Nat
  | [], encoding, occurrences => encoding ++ [occurrences]
  | byte :: rest, encoding, occurrences =>
    if byte = encoding.getLastD 0 ∧ occurrences < 255 then
      encodeLoop rest encoding (occurrences + 1)
    else
      encodeLoop rest (encoding ++ [occurrences, byte]) 1

/-- `encode` from src/main.rs lines 59-82: empty input returns `vec![]`;
otherwise the encoding is seeded with the first byte and the loop runs over
`bytes.iter().skip(1)` with `occurrences = 1`. -/
def encode : List Nat → List Nat
  | [] => []
  | byte :: rest => encodeLoop rest [byte] 1

/-- `decode` from src/main.rs lines 87-103.  The source iterates over all
indices, skips odd ones, and for each even index `i` pushes `bytes[i]` a
total of `bytes[i+1]` times.  This is exactly pair-at-a-time consumption:
an even index `i` reads `value = bytes[i]` and `count = bytes[i+1]`.  When
the input has odd length, the last even index reads `bytes[i+1]` one past
the end, which panics in Rust; that panic is modelled as `none`. -/
def decode : List Nat → Option (List Nat)
  | [] => some []
  | [_] => none
  | value :: count :: rest =>
    (decode rest).map (fun tail => List.replicate count value ++ tail)

/-- Modelled from the spec: the decoder's documented pair semantics
("for each even index `i`, read `value = input[i]` and `count = input[i+1]`,
then append `value` to the output `count` times, in order"), written
independently of `decode` so the two can be compared on even-length input. -/
def decodeSpec : List Nat → List Nat
  | value :: count :: rest => List.replicate count value ++ decodeSpec rest
  | _ => []

/-- Modelled from the spec: the (value, count) run decomposition of a byte
sequence with the run length capped at 255, starting from an open run with
value `v` and `occ` occurrences so far.  This is the spec's notion of
"run-k" used to state the pairing layout of the encoder. -/
def specRunsFrom (v occ : Nat) : List Nat → List (Nat × Nat)
  | [] => [(v, occ)]
  | byte :: rest =>
    if byte = v ∧ occ < 255 then
      specRunsFrom v (occ + 1) rest
    else
      (v, occ) :: specRunsFrom byte 1 rest

/-- Modelled from the spec: the capped run decomposition of a byte sequence. -/
def specRuns : List Nat → List (Nat × Nat)
  | [] => []
  | byte :: rest => specRunsFrom byte 1 rest

/-- `Config` from src/main.rs lines 117-120. -/
structure Config where
  do_encode : Bool
  path : String

/-- `Config::new` from src/main.rs lines 129-143.  The result is wrapped in
`Option`: `none` models a panic.  The source checks `args.len() < 2`, then
compares `args[1]` with `"d"`; in the decode branch it guards on
`args.get(1).is_none()` (always false at that point, since `args.len() >= 2`)
and then indexes `args[2]` unchecked, which panics when only `d` was given. -/
def configNew (args : List String) : Option (Except String Config) :=
  if args.length < 2 then
    some (Except.error "no argument was specified")
  else if args.getD 1 "" = "d" then
    if (args.get? 1).isNone then
      some (Except.error "no filepath was specified")
    else
      match args.get? 2 with
      | some p => some (Except.ok ⟨false, p⟩)
      | none => none
  else
    some (Except.ok ⟨true, args.getD 1 ""⟩)

/-! Helper lemmas shared by the claim theorems. -/

/-- Appending two elements fixes the last element of a list. -/
theorem getLastD_append_two (l : List Nat) (a b : Nat) :
    (l ++ [a, b]).getLastD 0 = b := by
  have : l ++ [a, b] = (l ++ [a]) ++ [b] := by simp
  rw [this, List.getLastD_concat]

/-- Appending one element fixes the last element of a list. -/
theorem getLastD_append_one (l : List Nat) (a : Nat) :
    (l ++ [a]).getLastD 0 = a := List.getLastD_concat _ _ _

/-- The encoder loop emits exactly the capped runs of its remaining input,
flattened as value byte followed by count byte, after the already-emitted
prefix.  The open run's value byte `v` is the last element of the
accumulator; `occ` is its count so far. -/
theorem encodeLoop_eq_runs (rest : List Nat) :
    ∀ (enc : List Nat) (v occ : Nat),
      encodeLoop rest (enc ++ [v]) occ =
        enc ++ (specRunsFrom v occ rest).flatMap (fun p => [p.1, p.2]) := by
  induction rest with
  | nil =>
    intro enc v occ
    simp [encodeLoop, specRunsFrom]
  | cons byte rest ih =>
    intro enc v occ
    rw [encodeLoop, specRunsFrom, getLastD_append_one]
    by_cases h : byte = v ∧ occ < 255
    · rw [if_pos h, if_pos h, ih]
    · rw [if_neg h, if_neg h]
      have hre : (enc ++ [v]) ++ [occ, byte] = (enc ++ [v, occ]) ++ [byte] := by
        simp
      rw [hre, ih]
      simp [List.flatMap_cons]

/-- `encode` on a nonempty input emits the capped runs, value byte first. -/
theorem encode_cons (v : Nat) (rest : List Nat) :
    encode (v :: rest) = (specRunsFrom v 1 rest).flatMap (fun p => [p.1, p.2]) := by
  have h := encodeLoop_eq_runs rest [] v 1
  simpa [encode] using h

/-- Decoding the flattened capped runs of `rest`, preceded by an open run of
`occ` copies of `v`, recovers `occ` copies of `v` followed by `rest`. -/
theorem decode_runs (rest : List Nat) :
    ∀ (v occ : Nat),
      decode ((specRunsFrom v occ rest).flatMap (fun p => [p.1, p.2])) =
        some (List.replicate occ v ++ rest) := by
  induction rest with
  | nil =>
    intro v occ
    simp [specRunsFrom, decode]
  | cons byte rest ih =>
    intro v occ
    rw [specRunsFrom]
    by_cases h : byte = v ∧ occ < 255
    · rw [if_pos h, ih]
      obtain ⟨hb, _⟩ := h
      subst hb
      simp [List.replicate_succ' occ]
    · rw [if_neg h]
      simp only [List.flatMap_cons]
      rw [show ([v, occ] ++ (specRunsFrom byte 1 rest).flatMap fun p => [p.1, p.2]) =
          v :: occ :: (specRunsFrom byte 1 rest).flatMap fun p => [p.1, p.2] from rfl]
      rw [decode, ih]
      simp

/-- Flattening runs into value/count byte pairs doubles the length. -/
theorem bind_pair_length (rs : List (Nat × Nat)) :
    (rs.flatMap (fun p => [p.1, p.2])).length = 2 * rs.length := by
  induction rs with
  | nil => rfl
  | cons p rs ih => simp [List.flatMap_cons, ih]; omega

/-- The capped run decomposition has between 1 and `rest.length + 1` runs. -/
theorem specRunsFrom_length (rest : List Nat) :
    ∀ (v occ : Nat),
      1 ≤ (specRunsFrom v occ rest).length ∧
        (specRunsFrom v occ rest).length ≤ rest.length + 1 := by
  induction rest with
  | nil => intro v occ; simp [specRunsFrom]
  | cons byte rest ih =>
    intro v occ
    rw [specRunsFrom]
    by_cases h : byte = v ∧ occ < 255
    · rw [if_pos h]
      have := ih v (occ + 1)
      simp only [List.length_cons]
      omega
    · rw [if_neg h]
      have := ih byte 1
      simp only [List.length_cons]
      omega

/-- The first run produced by `specRunsFrom v occ` carries the value `v`. -/
theorem specRunsFrom_head (rest : List Nat) :
    ∀ (v occ : Nat), ∃ c rs, specRunsFrom v occ rest = (v, c) :: rs := by
  induction rest with
  | nil => intro v occ; exact ⟨occ, [], rfl⟩
  | cons byte rest ih =>
    intro v occ
    rw [specRunsFrom]
    by_cases h : byte = v ∧ occ < 255
    · rw [if_pos h]; exact ih v (occ + 1)
    · rw [if_neg h]; exact ⟨occ, _, rfl⟩

/-- Every run count produced from an open run with count in `1..=255` stays
in `1..=255`. -/
theorem specRunsFrom_counts (rest : List Nat) :
    ∀ (v occ : Nat), 1 ≤ occ → occ ≤ 255 →
      ∀ p ∈ specRunsFrom v occ rest, 1 ≤ p.2 ∧ p.2 ≤ 255 := by
  induction rest with
  | nil =>
    intro v occ h1 h2 p hp
    simp [specRunsFrom] at hp
    subst hp
    exact ⟨h1, h2⟩
  | cons byte rest ih =>
    intro v occ h1 h2 p hp
    rw [specRunsFrom] at hp
    by_cases h : byte = v ∧ occ < 255
    · rw [if_pos h] at hp
      exact ih v (occ + 1) (by omega) (by omega) p hp
    · rw [if_neg h] at hp
      rcases List.mem_cons.mp hp with heq | hmem
      · subst heq; exact ⟨h1, h2⟩
      · exact ih byte 1 (by omega) (by omega) p hmem

/-- Two consecutive runs share a value only when the earlier one is capped
at 255. -/
theorem specRunsFrom_chain (rest : List Nat) :
    ∀ (v occ : Nat), occ ≤ 255 →
      List.Chain' (fun p q : Nat × Nat => p.1 = q.1 → p.2 = 255)
        (specRunsFrom v occ rest) := by
  induction rest with
  | nil => intro v occ _; simp [specRunsFrom]
  | cons byte rest ih =>
    intro v occ hocc
    rw [specRunsFrom]
    by_cases h : byte = v ∧ occ < 255
    · rw [if_pos h]; exact ih v (occ + 1) (by omega)
    · rw [if_neg h]
      obtain ⟨c, rs, hr⟩ := specRunsFrom_head rest byte 1
      rw [hr]
      rw [List.chain'_cons]
      constructor
      · intro hv
        by_contra hne
        exact h ⟨hv.symm, by omega⟩
      · rw [← hr]; exact ih byte 1 (by omega)

/-- A capped run fits in one pair when the total count stays at or below 255. -/
theorem specRunsFrom_replicate_le (n : Nat) :
    ∀ (v occ : Nat), occ + n ≤ 255 →
      specRunsFrom v occ (List.replicate n v) = [(v, occ + n)] := by
  induction n with
  | zero => intro v occ _; simp [specRunsFrom]
  | succ n ih =>
    intro v occ h
    rw [List.replicate_succ, specRunsFrom, if_pos ⟨rfl, by omega⟩, ih v (occ + 1) (by omega)]
    have : occ + 1 + n = occ + (n + 1) := by omega
    rw [this]

/-- A capped run crossing 255 splits off a pair with count 255 and recurses
on the remaining copies. -/
theorem specRunsFrom_replicate_gt (n : Nat) :
    ∀ (v occ : Nat), occ ≤ 255 → 255 < occ + n →
      specRunsFrom v occ (List.replicate n v) =
        (v, 255) :: specRunsFrom v 1 (List.replicate (occ + n - 256) v) := by
  induction n with
  | zero => intro v occ h1 h2; omega
  | succ n ih =>
    intro v occ h1 h2
    rw [List.replicate_succ, specRunsFrom]
    by_cases h : occ < 255
    · rw [if_pos ⟨rfl, h⟩, ih v (occ + 1) (by omega) (by omega)]
      have : occ + 1 + n - 256 = occ + (n + 1) - 256 := by omega
      rw [this]
    · have hocc : occ = 255 := by omega
      rw [if_neg (by simp [hocc])]
      subst hocc
      have : 255 + (n + 1) - 256 = n := by omega
      rw [this]

/-! Claim theorems. -/

/-- C1: for every finite byte sequence `b`, decoding the encoding of `b`
reproduces `b` exactly: `decode (encode b) = some b`. -/
theorem decode_encode_roundtrip (b : List Nat) : decode (encode b) = some b := by
  cases b with
  | nil => rfl
  | cons v rest =>
    rw [encode_cons]
    simpa using decode_runs rest v 1

/-- C2 evidence: on every odd-length input the decoder reads one byte past
the end and panics (modelled as `none`); it does not return a defined
`MalformedInput` error value, contrary to the claim. -/
theorem decode_odd_panics : ∀ (b : List Nat), b.length % 2 = 1 → decode b = none
  | [], h => by simp at h
  | [_], _ => rfl
  | _ :: _ :: rest, h => by
    have hr : rest.length % 2 = 1 := by
      simp only [List.length_cons] at h
      omega
    simp [decode, decode_odd_panics rest hr]

/-- C2 witness: the single-byte input `[0]` is odd-length and decoding it
panics. -/
theorem decode_odd_panics_witness :
    (([0] : List Nat).length % 2 = 1) ∧ decode [0] = none :=
  ⟨by decide, decode_odd_panics [0] (by decide)⟩

/-- C3: every even-length input decodes without error to the pair-at-a-time
interpretation: each even index contributes its value repeated count times,
in order; in particular the empty input decodes to the empty output. -/
theorem decode_even_defined :
    ∀ (b : List Nat), b.length % 2 = 0 → decode b = some (decodeSpec b)
  | [], _ => rfl
  | [_], h => by simp at h
  | v :: c :: rest, h => by
    have hr : rest.length % 2 = 0 := by
      simp only [List.length_cons] at h
      omega
    simp [decode, decodeSpec, decode_even_defined rest hr]

/-- C3 witness: the even-length input `[7, 3, 1, 2]` decodes to its pair
interpretation (three 7s then two 1s). -/
theorem decode_even_defined_witness :
    (([7, 3, 1, 2] : List Nat).length % 2 = 0) ∧
      decode [7, 3, 1, 2] = some (decodeSpec [7, 3, 1, 2]) :=
  ⟨by decide, decode_even_defined [7, 3, 1, 2] (by decide)⟩

/-- C4: on a nonempty input the encoder output is the flattening of the
capped runs as value byte at even offset `2k` and count byte at odd offset
`2k+1`, and it begins with the first raw byte's value. -/
theorem encode_pairing_layout (v : Nat) (rest : List Nat) :
    encode (v :: rest) =
        (specRuns (v :: rest)).flatMap (fun p => [p.1, p.2]) ∧
      (encode (v :: rest)).head? = some v := by
  have h := encode_cons v rest
  refine ⟨h, ?_⟩
  obtain ⟨c, rs, hr⟩ := specRunsFrom_head rest v 1
  rw [h, hr]
  simp [List.flatMap_cons]

/-- C5: the run cap is exactly 255: 255 copies of `v` encode to one pair
with count 255; 256 copies to pairs with counts 255 and 1; 300 copies to
pairs with counts 255 and 45, all pairs carrying the value `v`. -/
theorem encode_run_cap (v : Nat) :
    encode (List.replicate 255 v) = [v, 255] ∧
      encode (List.replicate 256 v) = [v, 255, v, 1] ∧
      encode (List.replicate 300 v) = [v, 255, v, 45] := by
  refine ⟨?_, ?_, ?_⟩
  · rw [show (255 : Nat) = 254 + 1 from rfl, List.replicate_succ, encode_cons,
      specRunsFrom_replicate_le 254 v 1 (by omega)]
    rfl
  · rw [show (256 : Nat) = 255 + 1 from rfl, List.replicate_succ, encode_cons,
      specRunsFrom_replicate_gt 255 v 1 (by omega) (by omega)]
    rw [show (1 + 255 - 256 : Nat) = 0 from rfl]
    rfl
  · rw [show (300 : Nat) = 299 + 1 from rfl, List.replicate_succ, encode_cons,
      specRunsFrom_replicate_gt 299 v 1 (by omega) (by omega)]
    rw [show (1 + 299 - 256 : Nat) = 44 from rfl,
      specRunsFrom_replicate_le 44 v 1 (by omega)]
    rfl

/-- C6: the encoder output is the flattening of the capped run
decomposition into (value, count) pairs, its total length is even, every
count lies in `[1, 255]`, and consecutive pairs share a value only when the
earlier pair's count is the cap 255 (the minimal capped pairing). -/
theorem encode_invariants (b : List Nat) :
    (encode b).length % 2 = 0 ∧
      encode b = (specRuns b).flatMap (fun p => [p.1, p.2]) ∧
      (∀ p ∈ specRuns b, 1 ≤ p.2 ∧ p.2 ≤ 255) ∧
      List.Chain' (fun p q : Nat × Nat => p.1 = q.1 → p.2 = 255) (specRuns b) := by
  cases b with
  | nil => exact ⟨rfl, rfl, by simp [specRuns], by simp [specRuns]⟩
  | cons v rest =>
    have h := encode_cons v rest
    have hlen := bind_pair_length (specRunsFrom v 1 rest)
    refine ⟨?_, h, ?_, ?_⟩
    · rw [h, hlen]; omega
    · exact specRunsFrom_counts rest v 1 (by omega) (by omega)
    · exact specRunsFrom_chain rest v 1 (by omega)

/-- C7: encoding the empty sequence returns the empty sequence, and
decoding the empty sequence returns the empty sequence. -/
theorem encode_decode_empty :
    encode [] = [] ∧ decode [] = some [] := ⟨rfl, rfl⟩

/-- C8 evidence: calling `Config::new` with `d` and no following path
panics (out-of-bounds index on `args[2]`, modelled as `none`) instead of
returning the missing-filepath argument error, because the guard checks
`args.get(1)` where `args.get(2)` was intended. -/
theorem configNew_d_without_path_panics :
    configNew ["rle-rs", "d"] = none := rfl

/-- C9: the decoder accepts a pair with count 0 and contributes nothing:
`decode [v, 0] = some []`, and more generally a leading zero-count pair
leaves the decoded output unchanged. -/
theorem decode_zero_count (v : Nat) (rest : List Nat) :
    decode [v, 0] = some [] ∧ decode (v :: 0 :: rest) = decode rest := by
  constructor
  · rfl
  · cases h : decode rest <;> simp [decode, h]

/-- C10: on every nonempty input the encoder output has even length, at
least 2, and at most twice the input length. -/
theorem encode_length_bounds (v : Nat) (rest : List Nat) :
    (encode (v :: rest)).length % 2 = 0 ∧
      2 ≤ (encode (v :: rest)).length ∧
      (encode (v :: rest)).length ≤ 2 * (v :: rest).length := by
  have h := encode_cons v rest
  have hlen := bind_pair_length (specRunsFrom v 1 rest)
  have hb := specRunsFrom_length rest v 1
  rw [h, hlen]
  simp only [List.length_cons]
  omega

end Rle
